import Mathlib

/-!
Verification of the streaming-parser / block-matching core of the ansuz
code-explainer application.

Text is modelled as `List Char` (one entry per UTF-16 code unit of the
JavaScript string; all inputs considered here are in the BMP, where the two
representations agree).  JavaScript library primitives
(`String.prototype.split`, `indexOf`, `trim`, `slice`, `Map`) are given
executable definitions with the same semantics; `JSON.parse` — an external
language builtin — is abstracted by a parameter describing, for each input
line, whether it throws, parses to a value failing the
`parsed.code_block && parsed.explanation` truthiness test, or parses to a
record with both fields truthy.
-/

set_option maxHeartbeats 1000000

namespace Ansuz

/-- Text as a list of UTF-16 code units. -/
abbrev Str := List Char

/-- The characters matched by the JavaScript whitespace class (ASCII part). -/
def jsIsWS (c : Char) : Bool :=
  c == ' ' || c == '\t' || c == '\n' || c == '\r' || c == '\x0b' || c == '\x0c'

/-- JavaScript String.prototype.trim. -/
def trimL (l : Str) : Str :=
  ((l.dropWhile jsIsWS).reverse.dropWhile jsIsWS).reverse

/-- Helper for whitespace collapsing: the flag records whether we are inside a
whitespace run whose single replacement space has already been emitted. -/
def collapseGo : Bool → Str → Str
  | _, [] => []
  | inWS, c :: rest =>
    if jsIsWS c then
      if inWS then collapseGo true rest else ' ' :: collapseGo true rest
    else c :: collapseGo false rest

/-- JavaScript text.replace with a global whitespace-run pattern and a single
space replacement: every maximal whitespace run becomes one space. -/
def collapseWS (l : Str) : Str := collapseGo false l

/-- CodeExplainerView.tsx normalizeWhitespace: text.trim() followed by
collapsing each whitespace run to a single space. -/
def normalizeWhitespace (text : Str) : Str := collapseWS (trimL text)

/-- JavaScript String.prototype.split with a single-character separator. -/
def splitOnChar (c : Char) : Str → List Str
  | [] => [[]]
  | x :: xs =>
    if x = c then [] :: splitOnChar c xs
    else (splitOnChar c xs).modifyHead (fun s => x :: s)

/-- Position of the first occurrence of pat as a contiguous sublist,
mirroring JavaScript String.prototype.indexOf with fromIndex 0. -/
def jsIndexOfSub (pat : Str) : Str → Option Nat
  | [] => if pat.isPrefixOf ([] : Str) then some 0 else none
  | x :: xs =>
    if pat.isPrefixOf (x :: xs) then some 0
    else (jsIndexOfSub pat xs).map (fun n => n + 1)

/-- JavaScript source.indexOf(pat, fromIndex) for a non-negative fromIndex
(the engine clamps fromIndex to the string length before searching). -/
def jsIndexOf (s pat : Str) (fromIndex : Nat) : Option Nat :=
  (jsIndexOfSub pat (s.drop (min fromIndex s.length))).map
    (fun n => n + min fromIndex s.length)

/-- JavaScript String.prototype.includes. -/
def containsSub (s pat : Str) : Bool := (jsIndexOfSub pat s).isSome

/-- CodeExplainerView.tsx: blockFromAI.replace of every line feed by a
carriage-return + line-feed pair. -/
def replaceLF : Str → Str
  | [] => []
  | c :: rest => if c = '\n' then '\r' :: '\n' :: replaceLF rest else c :: replaceLF rest

/-- Wrap an integer to the two's-complement 32-bit range, as JavaScript ToInt32. -/
def toInt32 (n : Int) : Int := (n + 2147483648) % 4294967296 - 2147483648

/-- One step of createBlockHash: hash = ((hash << 5) - hash) + charCode
followed by hash = hash & hash (which coerces back to a 32-bit integer). -/
def hashStep (h : Int) (c : Char) : Int := toInt32 (toInt32 (h * 32) - h + c.toNat)

/-- Digit characters of JavaScript Number.prototype.toString with radix 36. -/
def b36digit (d : Nat) : Char := if d < 10 then Char.ofNat (48 + d) else Char.ofNat (87 + d)

/-- Fuelled base-36 digit expansion (most significant digit first); the fuel
n + 1 always suffices because the quotient strictly decreases. -/
def b36Go : Nat → Nat → Str → Str
  | 0, _, acc => acc
  | fuel + 1, n, acc =>
    let d := b36digit (n % 36)
    if n / 36 = 0 then d :: acc else b36Go fuel (n / 36) (d :: acc)

/-- Base-36 rendering of a natural number, as JavaScript n.toString(36). -/
def toB36 (n : Nat) : Str := b36Go (n + 1) n []

/-- JavaScript Number.prototype.toString(36) on a (32-bit) integer. -/
def jsToString36 (i : Int) : Str :=
  if i < 0 then '-' :: toB36 i.natAbs else toB36 i.toNat

/-- part_000 createBlockHash: normalize the code block (trim, collapse
whitespace runs), run the 32-bit polynomial hash over the char codes, and
render the result in base 36. -/
def createBlockHash (codeBlock : Str) : Str :=
  jsToString36 ((normalizeWhitespace codeBlock).foldl hashStep 0)

/-- One (code_block, explanation) pair as stored in an Explanation. -/
structure Block where
  code_block : Str
  explanation : Str
deriving DecidableEq

/-- Association-list model of a JavaScript Map (keys unique, insertion
order preserved, set overwrites in place). -/
def lookupA {κ α : Type} [BEq κ] (m : List (κ × α)) (k : κ) : Option α :=
  (m.find? (fun p => p.1 == k)).map (fun p => p.2)

/-- JavaScript Map.prototype.set: update the existing entry in place, or
append a new entry at the end. -/
def setA {κ α : Type} [BEq κ] (m : List (κ × α)) (k : κ) (v : α) : List (κ × α) :=
  if m.any (fun p => p.1 == k) then
    m.map (fun p => if p.1 == k then (k, v) else p)
  else m ++ [(k, v)]

/-- The global cross-file block-explanation cache (hash string to
explanation text). -/
abbrev Cache := List (Str × Str)

/-- The record JSON.parse produces for a line passing the
parsed.code_block && parsed.explanation truthiness test. -/
structure JsRec where
  code_block : Str
  explanation : Str
deriving DecidableEq

/-- Abstraction of JSON.parse on a trimmed line: none models a thrown
exception, some none a successful parse whose result fails the
parsed.code_block && parsed.explanation test, and some (some r) a parse
yielding both fields truthy with the given contents. -/
abbrev JParse := Str → Option (Option JsRec)

/-- The opening-brace code unit. -/
def braceL : Char := '\x7b'

/-- A line of the stream that contributes a block: nonempty after trimming,
starting with an opening brace, and parsing to a record with both fields
truthy (part_000, lines 438-443). -/
def parseRecord (jp : JParse) (line : Str) : Option JsRec :=
  if trimL line ≠ [] ∧ (trimL line).head? = some braceL then
    (jp (trimL line)).bind id
  else none

/-- The block stored for a parsed record given the cache snapshot captured by
the running closure: a cached explanation is substituted, otherwise the
freshly parsed one is kept (part_000, lines 444-461). -/
def blockOf (cache0 : Cache) (r : JsRec) : Block :=
  { code_block := r.code_block
    explanation :=
      match lookupA cache0 (createBlockHash r.code_block) with
      | some e => e
      | none => r.explanation }

/-- The update performed on the outgoing global cache by one parsed record:
nothing when the snapshot already holds the hash, a Map.set of the freshly
parsed explanation otherwise (part_000, lines 448-456). -/
def cacheStep (cache0 : Cache) (c : Cache) (r : JsRec) : Cache :=
  if (lookupA cache0 (createBlockHash r.code_block)).isSome then c
  else setA c (createBlockHash r.code_block) r.explanation

/-- The last record of a run whose hash is h (JavaScript Map.set leaves the
last write for a key as the stored value). -/
def lastHash (recs : List JsRec) (h : Str) : Option JsRec :=
  recs.reverse.find? (fun r => createBlockHash r.code_block == h)

/-- Processing of one complete line of the JSON-lines stream
(part_000, lines 438-474; the end-of-stream flush at lines 479-509 runs the
same test and parse on the remaining buffer).  The first cache argument is
the snapshot of globalBlockCache captured by the closure — lookups during one
run see only that snapshot — while the second component of the state threads
the writes performed through setGlobalBlockCache. -/
def processLine (jp : JParse) (cache0 : Cache) (st : List Block × Cache) (line : Str) :
    List Block × Cache :=
  let t := trimL line
  if t ≠ [] ∧ t.head? = some braceL then
    match jp t with
    | some (some r) =>
      match lookupA cache0 (createBlockHash r.code_block) with
      | some e => (st.1 ++ [{ code_block := r.code_block, explanation := e }], st.2)
      | none =>
        (st.1 ++ [{ code_block := r.code_block, explanation := r.explanation }],
         setA st.2 (createBlockHash r.code_block) r.explanation)
    | _ => st
  else st

/-- Running state of the JSON-lines stream reader: the held-back final
segment of the buffer, the blocks emitted so far, and the outgoing state of
the global cache. -/
structure RState where
  buffer : Str
  blocks : List Block
  cache : Cache
deriving DecidableEq

/-- One chunk arriving from the stream (part_000, lines 432-476): append the
chunk text to the buffer, split on newline, keep the last (possibly
incomplete) segment as the new buffer, and process each complete line. -/
def feedChunk (jp : JParse) (cache0 : Cache) (st : RState) (chunk : Str) : RState :=
  if chunk = [] then st
  else
    let segs := splitOnChar '\n' (st.buffer ++ chunk)
    let bc := segs.dropLast.foldl (processLine jp cache0) (st.blocks, st.cache)
    { buffer := segs.getLastD [], blocks := bc.1, cache := bc.2 }

/-- A whole run of the JSON-lines analysis stream of fetchAndCacheExplanation
(part_000, lines 427-509): feed every chunk, then flush the remaining buffer
through the same test-and-parse step.  Returns the emitted blocks and the
final state of the global cache. -/
def fetchRun (jp : JParse) (cache0 : Cache) (chunks : List Str) : List Block × Cache :=
  let st := chunks.foldl (feedChunk jp cache0) { buffer := [], blocks := [], cache := cache0 }
  processLine jp cache0 (st.blocks, st.cache) st.buffer

/-- The three parsing modes of the marker-delimited stream parser
(App.tsx, line 137). -/
inductive PMode where
  | fc
  | fe
  | se
deriving DecidableEq

/-- Rank used in the termination measure of processBuffer. -/
def modeRank : PMode → Nat
  | .fc => 0
  | .fe => 1
  | .se => 2

/-- State of the marker-delimited parser: pending buffer, mode, and the
blocks of the file's Explanation. -/
structure PState where
  buffer : Str
  mode : PMode
  blocks : List Block
deriving DecidableEq

/-- The literal code marker (App.tsx, line 140). -/
def CODE_MARKER : Str := "---CODE---".toList

/-- The literal explanation marker (App.tsx, line 141). -/
def EXPLANATION_MARKER : Str := "---EXPLANATION---".toList

/-- Stripping of the code section found between the two markers: one leading
newline and then one trailing newline are removed (App.tsx, lines 161-167). -/
def stripCode (code : Str) : Str :=
  let c1 := if code.head? = some '\n' then code.drop 1 else code
  if c1.getLast? = some '\n' then c1.dropLast else c1

/-- Appending streamed explanation text to the last block: a no-op when the
chunk is empty (the if (explanationChunk) guard) or when no block exists yet
(the blocks.length === 0 guard inside the state update). -/
def appendToLast (blocks : List Block) (chunk : Str) : List Block :=
  if chunk = [] then blocks
  else
    match blocks.getLast? with
    | none => blocks
    | some b =>
      blocks.dropLast ++ [{ code_block := b.code_block, explanation := b.explanation ++ chunk }]

/-- Fuelled version of processBuffer (App.tsx, lines 143-238).  One unfolding
performs the body of one phase of the while loop; the loop continues
(madeProgress) exactly at the recursive calls. -/
def pbRun : Nat → PState → PState
  | 0, st => st
  | fuel + 1, st =>
    match st.mode with
    | .fc =>
      match jsIndexOfSub CODE_MARKER st.buffer with
      | none => st
      | some i =>
        pbRun fuel
          { buffer := st.buffer.drop (i + CODE_MARKER.length), mode := .fe, blocks := st.blocks }
    | .fe =>
      match jsIndexOfSub EXPLANATION_MARKER st.buffer with
      | none => st
      | some i =>
        let codeBlock := stripCode (st.buffer.take i)
        pbRun fuel
          { buffer := st.buffer.drop (i + EXPLANATION_MARKER.length)
            mode := .se
            blocks :=
              if codeBlock = [] then st.blocks
              else st.blocks ++ [{ code_block := codeBlock, explanation := [] }] }
    | .se =>
      match jsIndexOfSub CODE_MARKER st.buffer with
      | none =>
        let p := st.buffer.length - (CODE_MARKER.length - 1)
        { buffer := st.buffer.drop p, mode := .se,
          blocks := appendToLast st.blocks (st.buffer.take p) }
      | some i =>
        pbRun fuel
          { buffer := st.buffer.drop i, mode := .fc,
            blocks := appendToLast st.blocks (st.buffer.take i) }

/-- Fuel that always suffices for pbRun: every recursive call strictly
decreases this quantity. -/
def pbCost (st : PState) : Nat := 2 * st.buffer.length + modeRank st.mode + 1

/-- processBuffer (App.tsx, lines 143-238) as a total function: run the
while(madeProgress) loop to completion. -/
def processBuffer (st : PState) : PState := pbRun (pbCost st) st

/-- Appending one arriving chunk to the parser's buffer
(App.tsx, line 242). -/
def pushChunk (st : PState) (chunk : Str) : PState :=
  { buffer := st.buffer ++ chunk, mode := st.mode, blocks := st.blocks }

/-- A whole successful run of the marker-delimited stream of
streamAndCacheExplanation (App.tsx, lines 134-296): process each chunk, flush
the remaining buffer into the last block, and finally trim each block's
explanation (the finally clause, lines 284-295). -/
def mstreamRun (chunks : List Str) : List Block :=
  let st := chunks.foldl (fun s ch => processBuffer (pushChunk s ch))
    { buffer := [], mode := .fc, blocks := [] }
  (appendToLast st.blocks st.buffer).map
    (fun b => { code_block := b.code_block, explanation := trimL b.explanation })

/-- The whitespace-insensitive 1-to-5-line window scan, the third strategy of
findBlock (CodeExplainerView.tsx, lines 68-94). -/
def windowScan (source blockFromAI : Str) (startIndex : Nat) : Option (Nat × Str) :=
  let normalizedBlock := normalizeWhitespace blockFromAI
  let sourceLines := splitOnChar '\n' (source.drop startIndex)
  (List.range sourceLines.length).findSome? (fun i =>
    (List.range' 1 (min 5 (sourceLines.length - i))).findSome? (fun windowSize =>
      let candidateBlock := List.intercalate ['\n'] ((sourceLines.drop i).take windowSize)
      if normalizeWhitespace candidateBlock = normalizedBlock then
        let beforeCandidate := List.intercalate ['\n'] (sourceLines.take i)
        some (startIndex + (if 0 < i then beforeCandidate.length + 1 else 0), candidateBlock)
      else none))

/-- The block matcher findBlock (CodeExplainerView.tsx, lines 46-95):
exact substring search, then the carriage-return + line-feed variant, then
the whitespace-insensitive window scan; none found means null. -/
def findBlock (source blockFromAI : Str) (startIndex : Nat) : Option (Nat × Str) :=
  if blockFromAI = [] then none
  else
    match jsIndexOf source blockFromAI startIndex with
    | some i => some (i, blockFromAI)
    | none =>
      let blockWithCRLF := replaceLF blockFromAI
      if blockWithCRLF ≠ blockFromAI then
        match jsIndexOf source blockWithCRLF startIndex with
        | some i => some (i, blockWithCRLF)
        | none => windowScan source blockFromAI startIndex
      else windowScan source blockFromAI startIndex

/-- Number of line feeds in a string, as (text.match of the global line-feed
pattern or the empty array).length. -/
def countNL (l : Str) : Nat := l.countP (fun c => c == '\n')

/-- State of the line-range projection fold: the line-to-block Map and the
running search cursor lastIndex. -/
structure LineSt where
  metadata : List (Nat × Nat)
  lastIndex : Nat
deriving DecidableEq

/-- Processing of one block inside the lineMetadata fold
(CodeExplainerView.tsx, lines 130-152). -/
def lineStep (source : Str) (st : LineSt) (blockIndex : Nat) (codeBlock : Str) : LineSt :=
  if codeBlock = [] then st
  else
    match findBlock source codeBlock st.lastIndex with
    | none => st
    | some (currentIndex, verbatimContent) =>
      let startLine := countNL (source.take currentIndex) + 1
      let endLine := startLine + countNL verbatimContent
      { metadata :=
          (List.range' startLine (endLine + 1 - startLine)).foldl
            (fun m i => setA m i blockIndex) st.metadata
        lastIndex := currentIndex + verbatimContent.length }

/-- The full lineMetadata computation (CodeExplainerView.tsx, lines 125-155). -/
def lineMetadata (source : Str) (blocks : List Block) : LineSt :=
  blocks.enum.foldl (fun st p => lineStep source st p.1 p.2.code_block)
    { metadata := [], lastIndex := 0 }

/-- A node of the uploaded project tree (types.ts FileNode): content none
means the node is a directory. -/
inductive FileNodeM where
  | mk (name : Str) (path : Str) (content : Option Str) (children : List FileNodeM)

/-- Name component of a tree node. -/
def FileNodeM.name : FileNodeM → Str
  | .mk n _ _ _ => n

/-- Children of a tree node. -/
def FileNodeM.children : FileNodeM → List FileNodeM
  | .mk _ _ _ cs => cs

/-- WelcomeScreen.tsx reader onload walk (lines 51-67): descend through the
path parts, creating each missing child (with content only at the last
part). -/
def insertParts (pathPre : List Str) (content : Str) :
    List FileNodeM → List Str → List FileNodeM
  | children, [] => children
  | children, part :: rest =>
    if children.any (fun c => c.name == part) then
      children.map (fun c =>
        if c.name == part then
          .mk c.name (List.intercalate ['/'] (pathPre ++ [part]))
            (match c with | .mk _ _ co _ => co)
            (insertParts (pathPre ++ [part]) content c.children rest)
        else c)
    else
      children ++
        [.mk part (List.intercalate ['/'] (pathPre ++ [part]))
          (if rest = [] then some content else none)
          (insertParts (pathPre ++ [part]) content [] rest)]

/-- The root node built by handleFileChange from the selected files, given as
(relative path, content) pairs; the path is split on slashes with empty parts
removed (WelcomeScreen.tsx, lines 42-73). -/
def buildRoot (files : List (Str × Str)) : FileNodeM :=
  .mk "root".toList [] none
    (files.foldl
      (fun cs f => insertParts [] f.2 cs ((splitOnChar '/' f.1).filter (fun p => p ≠ [])))
      [])

/-- The hard ingestion cap (WelcomeScreen.tsx, line 5). -/
def FILE_LIMIT : Nat := 25

/-- handleFileChange (WelcomeScreen.tsx, lines 27-88): none models every
path on which no project is handed to onProjectReady (no selection, or the
file-count cap exceeded — the input is reset and the function returns before
any file is read). -/
def handleFileChange (files : List (Str × Str)) : Option FileNodeM :=
  if files.length = 0 then none
  else if files.length > FILE_LIMIT then none
  else some (buildRoot files)

/-- handlePasteSubmit (WelcomeScreen.tsx, lines 183-215), with the
parseMultiFileContent routine abstracted as a parameter: none models every
path on which no project is handed to onProjectReady (blank paste, or the
parsed file count exceeding the cap). -/
def handlePasteSubmit (parseMF : Str → List FileNodeM) (pastedCode : Str) : Option FileNodeM :=
  if trimL pastedCode = [] then none
  else
    let parsedFiles := parseMF pastedCode
    if parsedFiles.length > FILE_LIMIT then none
    else some (.mk "root".toList [] none parsedFiles)

/-- Per-file processing status; idle is modelled by absence from the map. -/
inductive PStatus where
  | processing
  | done
deriving DecidableEq

/-- A JavaScript error value as inspected by handleApiError: whether it is an
Error instance, and its message. -/
structure JsError where
  isError : Bool
  message : Str
deriving DecidableEq

/-- A file as seen by fetchAndCacheExplanation. -/
structure FileD where
  name : Str
  path : Str
  content : Option Str
deriving DecidableEq

/-- Outcome of the generation call and stream iteration: either the full list
of chunks arrives, or an error is thrown after the given chunks were
consumed. -/
inductive POut where
  | success (chunks : List Str)
  | failure (chunksSoFar : List Str) (err : JsError)
deriving DecidableEq

/-- The application state slices touched by fetchAndCacheExplanation. -/
structure AppSt where
  apiKey : Option Str
  status : List (Str × PStatus)
  expl : List (Str × List Block)
  blockCache : Cache
deriving DecidableEq

/-- part_000 handleApiError (lines 85-107): returns the user-facing message
and the api key after the possible clearing performed on an invalid-key error
(the key is kept when it came from the environment). -/
def handleApiError (envKey : Option Str) (err : JsError) (apiKey : Option Str) :
    Str × Option Str :=
  if err.isError = false then ("An unexpected error occurred.".toList, apiKey)
  else
    let isEnvKey := envKey.isSome && apiKey == envKey
    if containsSub err.message "API key not valid".toList
        || containsSub err.message "API key is invalid".toList then
      if isEnvKey then
        ("The API Key provided by the environment appears to be invalid.".toList, apiKey)
      else
        ("The provided API Key is invalid. Please enter a valid key.".toList, none)
    else if containsSub err.message "parse".toList then
      ("The response from the AI was not in the expected format.".toList, apiKey)
    else ("An error occurred while communicating with the API.".toList, apiKey)

/-- part_000 fetchAndCacheExplanation (lines 416-529): the guard at entry, the
streamed JSON-lines run on success, and the catch/finally handling on
failure.  The cache snapshot seen by lookups during the run is the one
captured when the call starts. -/
def analyze (jp : JParse) (envKey : Option Str) (file : FileD) (out : POut) (st : AppSt) :
    AppSt :=
  if file.content = none ∨ file.content = some [] ∨ st.apiKey = none ∨ st.apiKey = some []
      ∨ lookupA st.status file.path = some PStatus.done
      ∨ lookupA st.status file.path = some PStatus.processing then st
  else
    match out with
    | .success chunks =>
      let r := fetchRun jp st.blockCache chunks
      { apiKey := st.apiKey
        status := setA st.status file.path PStatus.done
        expl := setA st.expl file.path r.1
        blockCache := r.2 }
    | .failure chunksSoFar err =>
      let consumedRun :=
        chunksSoFar.foldl (feedChunk jp st.blockCache)
          { buffer := [], blocks := [], cache := st.blockCache }
      let he := handleApiError envKey err st.apiKey
      { apiKey := he.2
        status := setA st.status file.path PStatus.done
        expl := setA st.expl file.path
          [{ code_block := "// Error for ".toList ++ file.name
             explanation := "Failed to analyze file. ".toList ++ he.1 }]
        blockCache := consumedRun.cache }

/-- A closing brace character. -/
def braceR : Char := '\x7d'

/-- A concrete JSON line whose code_block is the text a b and whose
explanation is e1; JSON.parse accepts it with both fields truthy. -/
def jlineA : Str :=
  braceL :: "\"code_block\":\"a b\",\"explanation\":\"e1\"".toList ++ [braceR]

/-- A concrete JSON line whose code_block is the text a(two spaces)b — same
normalized form as jlineA's — and whose explanation is e2. -/
def jlineB : Str :=
  braceL :: "\"code_block\":\"a  b\",\"explanation\":\"e2\"".toList ++ [braceR]

/-- The behaviour of JSON.parse on the two concrete lines above (it throws on
every other input fed to it in the concrete runs below). -/
def jpC6 : JParse := fun l =>
  if l = jlineA then some (some { code_block := "a b".toList, explanation := "e1".toList })
  else if l = jlineB then
    some (some { code_block := "a  b".toList, explanation := "e2".toList })
  else none

end Ansuz

namespace Ansuz

/-! ## Association-list map lemmas -/

theorem lookupA_nil {κ α : Type} [BEq κ] (k : κ) : lookupA ([] : List (κ × α)) k = none := rfl

theorem lookupA_cons {κ α : Type} [BEq κ] (p : κ × α) (m : List (κ × α)) (k : κ) :
    lookupA (p :: m) k = if p.1 == k then some p.2 else lookupA m k := by
  by_cases h : p.1 == k
  · simp [lookupA, List.find?_cons_of_pos _ h, h]
  · simp [lookupA, List.find?_cons_of_neg _ h, h]

theorem lookupA_mapSet {κ α : Type} [BEq κ] [LawfulBEq κ] [DecidableEq κ] (m : List (κ × α)) (k k' : κ) (v : α) :
    lookupA (m.map (fun p => if p.1 == k then (k, v) else p)) k' =
      if k' = k then (if m.any (fun p => p.1 == k) then some v else none)
      else lookupA m k' := by
  induction m with
  | nil => simp [lookupA_nil]
  | cons p rest ih =>
    by_cases hpk : p.1 = k
    · by_cases hk : k' = k <;> by_cases hpk' : p.1 = k' <;>
        simp_all [lookupA_cons, List.any_cons, Bool.or_eq_true, beq_iff_eq]
    · have hbf : (p.1 == k) = false := beq_eq_false_iff_ne.mpr hpk
      by_cases hk : k' = k
      · by_cases hpk' : p.1 = k'
        · simp_all [lookupA_cons, List.any_cons, hbf]
        · simp_all [lookupA_cons, List.any_cons, hbf]
          rw [beq_eq_false_iff_ne.mpr hpk, Bool.false_or]
      · by_cases hpk' : p.1 = k' <;>
          simp_all [lookupA_cons, List.any_cons, hbf]

theorem lookupA_appendNew {κ α : Type} [BEq κ] [LawfulBEq κ] [DecidableEq κ] (m : List (κ × α)) (k k' : κ) (v : α) :
    lookupA (m ++ [(k, v)]) k' = if k' = k then (lookupA m k').or (some v) else lookupA m k' := by
  induction m with
  | nil =>
    by_cases hk : k' = k
    · simp_all [lookupA_cons, lookupA_nil]
    · have : ¬ (k = k') := fun h => hk h.symm
      simp_all [lookupA_cons, lookupA_nil]
  | cons p rest ih =>
    by_cases hpk' : p.1 = k' <;> by_cases hk : k' = k <;>
      simp_all [List.cons_append, lookupA_cons]

theorem lookupA_setA {κ α : Type} [BEq κ] [LawfulBEq κ] [DecidableEq κ] (m : List (κ × α)) (k k' : κ) (v : α) :
    lookupA (setA m k v) k' = if k' = k then some v else lookupA m k' := by
  unfold setA
  by_cases hany : m.any (fun p => p.1 == k)
  · rw [if_pos hany, lookupA_mapSet]
    simp [hany]
  · have hnone : lookupA m k = none := by
      unfold lookupA
      rw [List.find?_eq_none.mpr]
      · rfl
      · intro x hx hc
        rw [Bool.not_eq_true, List.any_eq_false] at hany
        exact hany x hx hc
    rw [if_neg hany, lookupA_appendNew]
    by_cases hk : k' = k
    · subst hk
      simp [hnone]
    · simp [hk]

/-! ## Lemmas about splitting on a character -/

theorem splitOnChar_nil (c : Char) : splitOnChar c [] = [[]] := rfl

theorem splitOnChar_cons_pos (c : Char) (xs : Str) :
    splitOnChar c (c :: xs) = [] :: splitOnChar c xs := by
  rw [splitOnChar, if_pos rfl]

theorem splitOnChar_cons_neg {c x : Char} (xs : Str) (h : x ≠ c) :
    splitOnChar c (x :: xs) = (splitOnChar c xs).modifyHead (fun s => x :: s) := by
  rw [splitOnChar, if_neg h]

theorem splitOnChar_ne_nil (c : Char) (l : Str) : splitOnChar c l ≠ [] := by
  induction l with
  | nil => simp [splitOnChar_nil]
  | cons x xs ih =>
    by_cases hx : x = c
    · subst hx
      simp [splitOnChar_cons_pos]
    · rw [splitOnChar_cons_neg xs hx]
      cases h : splitOnChar c xs with
      | nil => exact absurd h ih
      | cons a as => simp

theorem modifyHead_comp {α : Type} (f g : α → α) (l : List α) :
    (l.modifyHead g).modifyHead f = l.modifyHead (fun x => f (g x)) := by
  cases l <;> simp

theorem getLastD_cons_cons {α : Type} (a b : α) (l : List α) (d : α) :
    (a :: b :: l).getLastD d = (b :: l).getLastD d := by
  simp [List.getLastD_eq_getLast?]

theorem getLastD_irrel {α : Type} (b : α) (l : List α) (d d' : α) :
    (b :: l).getLastD d = (b :: l).getLastD d' := by
  rw [List.getLastD_cons, List.getLastD_cons]

theorem getLastD_not_mem_splitOnChar (c : Char) (l : Str) :
    c ∉ (splitOnChar c l).getLastD [] := by
  induction l with
  | nil => simp [splitOnChar_nil]
  | cons x xs ih =>
    by_cases hx : x = c
    · rw [hx, splitOnChar_cons_pos, List.getLastD_cons]
      cases h : splitOnChar c xs with
      | nil => exact absurd h (splitOnChar_ne_nil c xs)
      | cons a as =>
        rw [h] at ih
        rw [getLastD_irrel a as [] []]
        exact ih
    · rw [splitOnChar_cons_neg xs hx]
      cases h : splitOnChar c xs with
      | nil => exact absurd h (splitOnChar_ne_nil c xs)
      | cons a as =>
        rw [h] at ih
        cases as with
        | nil =>
          simp only [List.modifyHead_cons, List.getLastD_nil, List.getLastD_cons] at ih ⊢
          intro hm
          rcases List.mem_cons.mp hm with h1 | h2
          · exact hx h1.symm
          · exact ih (by simpa using h2)
        | cons b bs =>
          simp only [List.modifyHead_cons]
          rw [getLastD_cons_cons] at ih
          rw [getLastD_cons_cons]
          exact ih

theorem splitOnChar_of_not_mem {c : Char} {l : Str} (h : c ∉ l) : splitOnChar c l = [l] := by
  induction l with
  | nil => rfl
  | cons x xs ih =>
    have hx : x ≠ c := fun hc => h (hc ▸ List.mem_cons_self x xs)
    rw [splitOnChar_cons_neg xs hx, ih (fun hm => h (List.mem_cons_of_mem x hm))]
    rfl

theorem splitOnChar_append (c : Char) (a b : Str) :
    splitOnChar c (a ++ b) =
      (splitOnChar c a).dropLast ++
        (splitOnChar c b).modifyHead (fun s => (splitOnChar c a).getLastD [] ++ s) := by
  induction a with
  | nil =>
    rw [List.nil_append, splitOnChar_nil]
    cases h : splitOnChar c b with
    | nil => exact absurd h (splitOnChar_ne_nil c b)
    | cons s ss => simp
  | cons x xs ih =>
    by_cases hx : x = c
    · rw [hx, List.cons_append, splitOnChar_cons_pos, splitOnChar_cons_pos, ih]
      have hne := splitOnChar_ne_nil c xs
      rw [List.dropLast_cons_of_ne_nil hne, List.getLastD_cons]
      simp
    · rw [List.cons_append, splitOnChar_cons_neg _ hx, splitOnChar_cons_neg _ hx, ih]
      cases h : splitOnChar c xs with
      | nil => exact absurd h (splitOnChar_ne_nil c xs)
      | cons s ss =>
        rcases ss with _ | ⟨r, rs⟩
        · cases hb : splitOnChar c b with
          | nil => exact absurd hb (splitOnChar_ne_nil c b)
          | cons t ts => simp
        · simp [List.modifyHead_cons,
            List.dropLast_cons_of_ne_nil (show (r :: rs) ≠ ([] : List Str) by simp),
            List.getLastD_cons]

/-! ## Lemmas about the indexOf search -/

theorem jsIndexOfSub_nil_pat (l : Str) : jsIndexOfSub [] l = some 0 := by
  cases l <;> simp [jsIndexOfSub, List.isPrefixOf]

theorem jsIndexOfSub_sound {pat l : Str} {i : Nat} (h : jsIndexOfSub pat l = some i) :
    pat.isPrefixOf (l.drop i) = true ∧ ∀ j, j < i → pat.isPrefixOf (l.drop j) = false := by
  induction l generalizing i with
  | nil =>
    rw [jsIndexOfSub] at h
    split at h
    · rename_i hp
      cases h
      exact ⟨hp, fun j hj => absurd hj (Nat.not_lt_zero j)⟩
    · cases h
  | cons x xs ih =>
    rw [jsIndexOfSub] at h
    split at h
    · rename_i hp
      cases h
      exact ⟨hp, fun j hj => absurd hj (Nat.not_lt_zero j)⟩
    · rename_i hp
      rw [Option.map_eq_some'] at h
      obtain ⟨i', hi', rfl⟩ := h
      obtain ⟨h1, h2⟩ := ih hi'
      refine ⟨h1, fun j hj => ?_⟩
      cases j with
      | zero => simpa using Bool.not_eq_true _ ▸ (by simpa using hp)
      | succ j' => exact h2 j' (by omega)

theorem jsIndexOfSub_complete {pat l : Str} {i : Nat}
    (hocc : pat.isPrefixOf (l.drop i) = true)
    (hmin : ∀ j, j < i → pat.isPrefixOf (l.drop j) = false) :
    jsIndexOfSub pat l = some i := by
  induction l generalizing i with
  | nil =>
    have hi : i = 0 := by
      by_contra hne
      have := hmin 0 (Nat.pos_of_ne_zero hne)
      rw [List.drop_nil] at this hocc
      rw [this] at hocc
      cases hocc
    subst hi
    rw [jsIndexOfSub, if_pos (by simpa using hocc)]
  | cons x xs ih =>
    by_cases hp : pat.isPrefixOf (x :: xs) = true
    · have hi : i = 0 := by
        by_contra hne
        have := hmin 0 (Nat.pos_of_ne_zero hne)
        rw [List.drop_zero] at this
        rw [this] at hp
        cases hp
      subst hi
      rw [jsIndexOfSub, if_pos hp]
    · have hi : i ≠ 0 := by
        intro h0
        subst h0
        rw [List.drop_zero] at hocc
        exact hp hocc
      obtain ⟨i', rfl⟩ := Nat.exists_eq_succ_of_ne_zero hi
      rw [jsIndexOfSub, if_neg hp]
      rw [ih (by simpa using hocc) (fun j hj => by simpa using hmin (j + 1) (by omega))]
      rfl

theorem jsIndexOfSub_none_iff {pat l : Str} :
    jsIndexOfSub pat l = none ↔ ∀ j, pat.isPrefixOf (l.drop j) = false := by
  induction l with
  | nil =>
    rw [jsIndexOfSub]
    constructor
    · intro h j
      split at h
      · cases h
      · rename_i hp
        rw [List.drop_nil]
        exact Bool.not_eq_true _ ▸ (by simpa using hp)
    · intro h
      have h0 := h 0
      rw [List.drop_nil] at h0
      rw [Bool.eq_false_iff] at h0
      rw [if_neg (by simpa using h0)]
  | cons x xs ih =>
    rw [jsIndexOfSub]
    by_cases hp : pat.isPrefixOf (x :: xs) = true
    · rw [if_pos hp]
      constructor
      · intro h; cases h
      · intro h
        have := h 0
        rw [List.drop_zero] at this
        rw [this] at hp
        cases hp
    · rw [if_neg hp]
      constructor
      · intro h j
        rw [Option.map_eq_none'] at h
        cases j with
        | zero =>
          rw [List.drop_zero]
          exact Bool.not_eq_true _ ▸ (by simpa using hp)
        | succ j' => simpa using ih.mp h j'
      · intro h
        rw [Option.map_eq_none']
        exact ih.mpr (fun j => by simpa using h (j + 1))

theorem isPrefixOf_length_le {pat u : Str} (h : pat.isPrefixOf u = true) :
    pat.length ≤ u.length := by
  rw [ List.isPrefixOf_iff_prefix] at h
  exact h.length_le

theorem jsIndexOfSub_bound {pat l : Str} {i : Nat} (hpat : pat ≠ [])
    (h : pat.isPrefixOf (l.drop i) = true) : i + pat.length ≤ l.length := by
  have hle : pat.length ≤ l.length - i := by
    have := isPrefixOf_length_le h
    simpa using this
  have hi : i ≤ l.length := by
    by_contra hlt
    rw [List.drop_eq_nil_of_le (by omega)] at h
    rw [ List.isPrefixOf_iff_prefix] at h
    exact hpat (List.prefix_nil.mp h)
  omega

theorem isPrefixOf_append_left {pat l r : Str} {i : Nat}
    (h : i + pat.length ≤ l.length) :
    pat.isPrefixOf ((l ++ r).drop i) = pat.isPrefixOf (l.drop i) := by
  rw [List.drop_append_of_le_length (by omega)]
  have key : pat.isPrefixOf (l.drop i ++ r) = true ↔ pat.isPrefixOf (l.drop i) = true := by
    rw [ List.isPrefixOf_iff_prefix, List.isPrefixOf_iff_prefix,
      List.prefix_iff_eq_take, List.prefix_iff_eq_take,
      List.take_append_of_le_length (by simpa using (by omega : pat.length ≤ l.length - i))]
  cases hp : pat.isPrefixOf (l.drop i) with
  | true => exact key.mpr hp
  | false =>
    cases hc : pat.isPrefixOf (l.drop i ++ r) with
    | false => rfl
    | true =>
      rw [key.mp hc] at hp
      cases hp

theorem jsIndexOfSub_append {pat l r : Str} {i : Nat} (h : jsIndexOfSub pat l = some i) :
    jsIndexOfSub pat (l ++ r) = some i := by
  by_cases hpat : pat = []
  · subst hpat
    have : i = 0 := by
      rw [jsIndexOfSub_nil_pat] at h
      cases h
      rfl
    subst this
    exact jsIndexOfSub_nil_pat _
  · obtain ⟨h1, h2⟩ := jsIndexOfSub_sound h
    have hbound := jsIndexOfSub_bound hpat h1
    apply jsIndexOfSub_complete
    · rw [isPrefixOf_append_left hbound]
      exact h1
    · intro j hj
      rw [isPrefixOf_append_left (by omega)]
      exact h2 j hj

theorem jsIndexOfSub_shift {pat l : Str} {k : Nat}
    (h : ∀ j, j < k → pat.isPrefixOf (l.drop j) = false) :
    jsIndexOfSub pat l = (jsIndexOfSub pat (l.drop k)).map (fun n => n + k) := by
  induction k generalizing l with
  | zero => simp
  | succ k' ih =>
    cases l with
    | nil =>
      have h0 := h 0 (Nat.succ_pos k')
      rw [List.drop_nil] at h0
      rw [List.drop_nil]
      rw [jsIndexOfSub]
      rw [if_neg (by simp [h0])]
      simp
    | cons x xs =>
      have h0 := h 0 (Nat.succ_pos k')
      rw [List.drop_zero] at h0
      rw [jsIndexOfSub, if_neg (by simp [h0])]
      rw [ih (fun j hj => by simpa using h (j + 1) (by omega))]
      rw [show (x :: xs).drop (k' + 1) = xs.drop k' from rfl]
      rw [Option.map_map]
      congr 1

/-! ## The JSON-lines stream reader is split-invariant -/

theorem getLastD_append_of_ne_nil {α : Type} (l1 : List α) {l2 : List α} (d : α)
    (h : l2 ≠ []) : (l1 ++ l2).getLastD d = l2.getLastD d := by
  rw [List.getLastD_eq_getLast?, List.getLastD_eq_getLast?, List.getLast?_append]
  cases h2 : l2.getLast? with
  | none => exact absurd (List.getLast?_eq_none_iff.mp h2) h
  | some y => rfl

theorem feedChunk_nil (jp : JParse) (cache0 : Cache) (st : RState) :
    feedChunk jp cache0 st [] = st := by
  simp [feedChunk]

theorem feedChunk_of_ne (jp : JParse) (cache0 : Cache) (st : RState) {chunk : Str}
    (h : chunk ≠ []) :
    feedChunk jp cache0 st chunk =
      { buffer := (splitOnChar '\n' (st.buffer ++ chunk)).getLastD []
        blocks := ((splitOnChar '\n' (st.buffer ++ chunk)).dropLast.foldl
          (processLine jp cache0) (st.blocks, st.cache)).1
        cache := ((splitOnChar '\n' (st.buffer ++ chunk)).dropLast.foldl
          (processLine jp cache0) (st.blocks, st.cache)).2 } := by
  simp only [feedChunk, if_neg h]

theorem feedChunk_append (jp : JParse) (cache0 : Cache) (st : RState) (a b : Str) :
    feedChunk jp cache0 (feedChunk jp cache0 st a) b = feedChunk jp cache0 st (a ++ b) := by
  by_cases ha : a = []
  · subst ha
    rw [feedChunk_nil, List.nil_append]
  · by_cases hb : b = []
    · subst hb
      rw [feedChunk_nil, List.append_nil]
    · have hab : a ++ b ≠ [] := fun hc => ha (List.append_eq_nil.mp hc).1
      rw [feedChunk_of_ne jp cache0 st ha, feedChunk_of_ne jp cache0 st hab]
      rw [feedChunk_of_ne jp cache0 _ hb]
      have hlast : splitOnChar '\n'
          ((splitOnChar '\n' (st.buffer ++ a)).getLastD []) =
          [(splitOnChar '\n' (st.buffer ++ a)).getLastD []] :=
        splitOnChar_of_not_mem (getLastD_not_mem_splitOnChar '\n' (st.buffer ++ a))
      have hs3 : splitOnChar '\n' (st.buffer ++ (a ++ b)) =
          (splitOnChar '\n' (st.buffer ++ a)).dropLast ++
            splitOnChar '\n' ((splitOnChar '\n' (st.buffer ++ a)).getLastD [] ++ b) := by
        rw [← List.append_assoc, splitOnChar_append '\n' (st.buffer ++ a) b]
        rw [splitOnChar_append '\n' ((splitOnChar '\n' (st.buffer ++ a)).getLastD []) b,
          hlast]
        simp
      have hs2ne : splitOnChar '\n'
          ((splitOnChar '\n' (st.buffer ++ a)).getLastD [] ++ b) ≠ [] :=
        splitOnChar_ne_nil _ _
      rw [hs3, List.dropLast_append_of_ne_nil _ hs2ne,
        getLastD_append_of_ne_nil _ _ hs2ne, List.foldl_append]

theorem foldl_feedChunk (jp : JParse) (cache0 : Cache) (chunks : List Str) (st : RState) :
    chunks.foldl (feedChunk jp cache0) st = feedChunk jp cache0 st chunks.flatten := by
  induction chunks generalizing st with
  | nil => rw [List.foldl_nil, List.flatten_nil, feedChunk_nil]
  | cons ch chs ih =>
    rw [List.foldl_cons, ih, feedChunk_append, List.flatten_cons]

theorem fetchRun_eq_foldLines (jp : JParse) (cache0 : Cache) (chunks : List Str) :
    fetchRun jp cache0 chunks =
      (splitOnChar '\n' chunks.flatten).foldl (processLine jp cache0) ([], cache0) := by
  unfold fetchRun
  rw [foldl_feedChunk]
  by_cases hfl : chunks.flatten = []
  · rw [hfl, feedChunk_nil, splitOnChar_nil]
    simp [processLine, trimL]
  · rw [feedChunk_of_ne jp cache0 _ hfl]
    simp only [List.nil_append]
    have hne := splitOnChar_ne_nil '\n' chunks.flatten
    conv_rhs =>
      rw [← List.dropLast_append_getLast hne, List.foldl_append]
    rw [List.foldl_cons, List.foldl_nil]
    have : (splitOnChar '\n' chunks.flatten).getLast hne =
        (splitOnChar '\n' chunks.flatten).getLastD [] := by
      rw [List.getLastD_eq_getLast?, List.getLast?_eq_getLast _ hne]
      rfl
    rw [this]

theorem processLine_of_none (jp : JParse) (cache0 : Cache) (st : List Block × Cache)
    (line : Str) (h : parseRecord jp line = none) :
    processLine jp cache0 st line = st := by
  unfold processLine
  unfold parseRecord at h
  by_cases hg : trimL line ≠ [] ∧ (trimL line).head? = some braceL
  · rw [if_pos hg] at h
    simp only [if_pos hg]
    cases hjp : jp (trimL line) with
    | none => rfl
    | some o =>
      cases o with
      | none => rfl
      | some r =>
        rw [hjp] at h
        cases h
  · simp only [if_neg hg]

theorem processLine_of_some (jp : JParse) (cache0 : Cache) (st : List Block × Cache)
    (line : Str) (r : JsRec) (h : parseRecord jp line = some r) :
    processLine jp cache0 st line =
      (st.1 ++ [blockOf cache0 r], cacheStep cache0 st.2 r) := by
  unfold processLine
  unfold parseRecord at h
  by_cases hg : trimL line ≠ [] ∧ (trimL line).head? = some braceL
  · rw [if_pos hg] at h
    simp only [if_pos hg]
    cases hjp : jp (trimL line) with
    | none => rw [hjp] at h; cases h
    | some o =>
      cases o with
      | none => rw [hjp] at h; cases h
      | some r' =>
        rw [hjp] at h
        simp only [Option.bind, Option.some.injEq, id] at h
        subst h
        unfold blockOf cacheStep
        cases hl : lookupA cache0 (createBlockHash r'.code_block) with
        | none => simp [hl]
        | some e => simp [hl]
  · rw [if_neg hg] at h
    cases h

theorem foldl_processLine_spec (jp : JParse) (cache0 : Cache) (lines : List Str) :
    ∀ (bs : List Block) (cA : Cache),
    lines.foldl (processLine jp cache0) (bs, cA) =
      (bs ++ (lines.filterMap (parseRecord jp)).map (blockOf cache0),
       (lines.filterMap (parseRecord jp)).foldl (cacheStep cache0) cA) := by
  induction lines with
  | nil => intro bs cA; simp
  | cons line rest ih =>
    intro bs cA
    rw [List.foldl_cons, List.filterMap_cons]
    cases hpr : parseRecord jp line with
    | none =>
      rw [processLine_of_none jp cache0 _ _ hpr, ih]
    | some r =>
      rw [processLine_of_some jp cache0 _ _ _ hpr, ih]
      simp

/-- C1: for every fragment sequence fed to the JSON-lines stream parser of
fetchAndCacheExplanation (including its end-of-stream flush), the run depends
only on the concatenation of the fragments — so a split in the middle of a
line loses and duplicates nothing — and the emitted blocks are exactly the
complete JSON-line records of the concatenation (lines that are single-line
JSON objects with both a code_block and an explanation field), in order;
starting from the fresh empty session cache, each emitted block carries
exactly the parsed code_block and explanation contents. -/
theorem c1_jsonl_split_invariance (jp : JParse) (cache0 : Cache) (fragments : List Str) :
    fetchRun jp cache0 fragments = fetchRun jp cache0 [fragments.flatten]
    ∧ (fetchRun jp cache0 fragments).1 =
      ((splitOnChar '\n' fragments.flatten).filterMap (parseRecord jp)).map (blockOf cache0)
    ∧ (fetchRun jp [] fragments).1 =
      ((splitOnChar '\n' fragments.flatten).filterMap (parseRecord jp)).map
        (fun r => { code_block := r.code_block, explanation := r.explanation }) := by
  refine ⟨?_, ?_, ?_⟩
  · rw [fetchRun_eq_foldLines, fetchRun_eq_foldLines]
    rw [List.flatten_singleton]
  · rw [fetchRun_eq_foldLines, foldl_processLine_spec]
    simp
  · rw [fetchRun_eq_foldLines, foldl_processLine_spec]
    simp only [List.nil_append]
    apply List.map_congr_left
    intro r _
    unfold blockOf
    rfl

/-! ## The marker-delimited parser: fuel stability and step lemmas -/

theorem CODE_MARKER_length : CODE_MARKER.length = 10 := rfl

theorem EXPLANATION_MARKER_length : EXPLANATION_MARKER.length = 17 := rfl

theorem CODE_MARKER_ne_nil : CODE_MARKER ≠ [] := by decide

theorem EXPLANATION_MARKER_ne_nil : EXPLANATION_MARKER ≠ [] := by decide

theorem pbCost_pos (st : PState) : 1 ≤ pbCost st := by
  unfold pbCost
  omega

theorem pbCost_lt_fc {buf : Str} {i : Nat} (bs bs' : List Block)
    (h : jsIndexOfSub CODE_MARKER buf = some i) :
    pbCost ⟨buf.drop (i + CODE_MARKER.length), .fe, bs⟩ < pbCost ⟨buf, .fc, bs'⟩ := by
  have hb := jsIndexOfSub_bound CODE_MARKER_ne_nil (jsIndexOfSub_sound h).1
  rw [CODE_MARKER_length] at hb ⊢
  simp only [pbCost, modeRank, List.length_drop]
  omega

theorem pbCost_lt_fe {buf : Str} {i : Nat} (bs bs' : List Block)
    (h : jsIndexOfSub EXPLANATION_MARKER buf = some i) :
    pbCost ⟨buf.drop (i + EXPLANATION_MARKER.length), .se, bs⟩ < pbCost ⟨buf, .fe, bs'⟩ := by
  have hb := jsIndexOfSub_bound EXPLANATION_MARKER_ne_nil (jsIndexOfSub_sound h).1
  rw [EXPLANATION_MARKER_length] at hb ⊢
  simp only [pbCost, modeRank, List.length_drop]
  omega

theorem pbCost_lt_se (buf : Str) (i : Nat) (bs bs' : List Block) :
    pbCost ⟨buf.drop i, .fc, bs⟩ < pbCost ⟨buf, .se, bs'⟩ := by
  simp only [pbCost, modeRank, List.length_drop]
  omega

theorem pbRun_fuel : ∀ n m st, pbCost st ≤ n → pbCost st ≤ m → pbRun n st = pbRun m st := by
  intro n
  induction n using Nat.strong_induction_on with
  | _ n IH =>
    intro m st hn hm
    match n, m with
    | 0, _ => exact absurd hn (by have := pbCost_pos st; omega)
    | _ + 1, 0 => exact absurd hm (by have := pbCost_pos st; omega)
    | n' + 1, m' + 1 =>
      obtain ⟨buf, mode, bs⟩ := st
      cases mode with
      | fc =>
        cases hidx : jsIndexOfSub CODE_MARKER buf with
        | none => simp only [pbRun, hidx]
        | some i =>
          simp only [pbRun, hidx]
          have hlt := pbCost_lt_fc bs bs hidx
          exact IH n' (Nat.lt_succ_self n') m' _ (by omega) (by omega)
      | fe =>
        cases hidx : jsIndexOfSub EXPLANATION_MARKER buf with
        | none => simp only [pbRun, hidx]
        | some i =>
          simp only [pbRun, hidx]
          have hlt := pbCost_lt_fe
            (if stripCode (buf.take i) = [] then bs
             else bs ++ [{ code_block := stripCode (buf.take i), explanation := [] }]) bs hidx
          exact IH n' (Nat.lt_succ_self n') m' _ (by omega) (by omega)
      | se =>
        cases hidx : jsIndexOfSub CODE_MARKER buf with
        | none => simp only [pbRun, hidx]
        | some i =>
          simp only [pbRun, hidx]
          have hlt := pbCost_lt_se buf i (appendToLast bs (buf.take i)) bs
          exact IH n' (Nat.lt_succ_self n') m' _ (by omega) (by omega)

theorem processBuffer_eq_pbRun {n : Nat} (st : PState) (h : pbCost st ≤ n) :
    pbRun n st = processBuffer st :=
  pbRun_fuel n (pbCost st) st h (Nat.le_refl _)

theorem pbRun_succ_fc_none {n : Nat} {buf : Str} (bs : List Block)
    (h : jsIndexOfSub CODE_MARKER buf = none) :
    pbRun (n + 1) ⟨buf, .fc, bs⟩ = ⟨buf, .fc, bs⟩ := by
  simp only [pbRun, h]

theorem pbRun_succ_fc_some {n : Nat} {buf : Str} {i : Nat} (bs : List Block)
    (h : jsIndexOfSub CODE_MARKER buf = some i) :
    pbRun (n + 1) ⟨buf, .fc, bs⟩ =
      pbRun n ⟨buf.drop (i + CODE_MARKER.length), .fe, bs⟩ := by
  simp only [pbRun, h]

theorem pbRun_succ_fe_none {n : Nat} {buf : Str} (bs : List Block)
    (h : jsIndexOfSub EXPLANATION_MARKER buf = none) :
    pbRun (n + 1) ⟨buf, .fe, bs⟩ = ⟨buf, .fe, bs⟩ := by
  simp only [pbRun, h]

theorem pbRun_succ_fe_some {n : Nat} {buf : Str} {i : Nat} (bs : List Block)
    (h : jsIndexOfSub EXPLANATION_MARKER buf = some i) :
    pbRun (n + 1) ⟨buf, .fe, bs⟩ =
      pbRun n ⟨buf.drop (i + EXPLANATION_MARKER.length), .se,
        if stripCode (buf.take i) = [] then bs
        else bs ++ [{ code_block := stripCode (buf.take i), explanation := [] }]⟩ := by
  simp only [pbRun, h]

theorem pbRun_succ_se_none {n : Nat} {buf : Str} (bs : List Block)
    (h : jsIndexOfSub CODE_MARKER buf = none) :
    pbRun (n + 1) ⟨buf, .se, bs⟩ =
      ⟨buf.drop (buf.length - (CODE_MARKER.length - 1)), .se,
        appendToLast bs (buf.take (buf.length - (CODE_MARKER.length - 1)))⟩ := by
  simp only [pbRun, h]

theorem pbRun_succ_se_some {n : Nat} {buf : Str} {i : Nat} (bs : List Block)
    (h : jsIndexOfSub CODE_MARKER buf = some i) :
    pbRun (n + 1) ⟨buf, .se, bs⟩ =
      pbRun n ⟨buf.drop i, .fc, appendToLast bs (buf.take i)⟩ := by
  simp only [pbRun, h]

theorem pbCost_fc (buf : Str) (bs : List Block) :
    pbCost ⟨buf, .fc, bs⟩ = 2 * buf.length + 1 := by
  simp [pbCost, modeRank]

theorem pbCost_fe (buf : Str) (bs : List Block) :
    pbCost ⟨buf, .fe, bs⟩ = (2 * buf.length + 1) + 1 := by
  simp [pbCost, modeRank]

theorem pbCost_se (buf : Str) (bs : List Block) :
    pbCost ⟨buf, .se, bs⟩ = (2 * buf.length + 2) + 1 := by
  simp [pbCost, modeRank]

theorem processBuffer_fc_none {buf : Str} (bs : List Block)
    (h : jsIndexOfSub CODE_MARKER buf = none) :
    processBuffer ⟨buf, .fc, bs⟩ = ⟨buf, .fc, bs⟩ := by
  rw [processBuffer, pbCost_fc, pbRun_succ_fc_none bs h]

theorem processBuffer_fc_some {buf : Str} {i : Nat} (bs : List Block)
    (h : jsIndexOfSub CODE_MARKER buf = some i) :
    processBuffer ⟨buf, .fc, bs⟩ =
      processBuffer ⟨buf.drop (i + CODE_MARKER.length), .fe, bs⟩ := by
  rw [processBuffer, pbCost_fc, pbRun_succ_fc_some bs h]
  apply processBuffer_eq_pbRun
  have hb := jsIndexOfSub_bound CODE_MARKER_ne_nil (jsIndexOfSub_sound h).1
  rw [pbCost_fe, List.length_drop]
  rw [CODE_MARKER_length] at hb ⊢
  omega

theorem processBuffer_fe_none {buf : Str} (bs : List Block)
    (h : jsIndexOfSub EXPLANATION_MARKER buf = none) :
    processBuffer ⟨buf, .fe, bs⟩ = ⟨buf, .fe, bs⟩ := by
  rw [processBuffer, pbCost_fe, pbRun_succ_fe_none bs h]

theorem processBuffer_fe_some {buf : Str} {i : Nat} (bs : List Block)
    (h : jsIndexOfSub EXPLANATION_MARKER buf = some i) :
    processBuffer ⟨buf, .fe, bs⟩ =
      processBuffer ⟨buf.drop (i + EXPLANATION_MARKER.length), .se,
        if stripCode (buf.take i) = [] then bs
        else bs ++ [{ code_block := stripCode (buf.take i), explanation := [] }]⟩ := by
  rw [processBuffer, pbCost_fe, pbRun_succ_fe_some bs h]
  apply processBuffer_eq_pbRun
  have hb := jsIndexOfSub_bound EXPLANATION_MARKER_ne_nil (jsIndexOfSub_sound h).1
  rw [pbCost_se, List.length_drop]
  rw [EXPLANATION_MARKER_length] at hb ⊢
  omega

theorem processBuffer_se_none {buf : Str} (bs : List Block)
    (h : jsIndexOfSub CODE_MARKER buf = none) :
    processBuffer ⟨buf, .se, bs⟩ =
      ⟨buf.drop (buf.length - (CODE_MARKER.length - 1)), .se,
        appendToLast bs (buf.take (buf.length - (CODE_MARKER.length - 1)))⟩ := by
  rw [processBuffer, pbCost_se, pbRun_succ_se_none bs h]

theorem processBuffer_se_some {buf : Str} {i : Nat} (bs : List Block)
    (h : jsIndexOfSub CODE_MARKER buf = some i) :
    processBuffer ⟨buf, .se, bs⟩ =
      processBuffer ⟨buf.drop i, .fc, appendToLast bs (buf.take i)⟩ := by
  rw [processBuffer, pbCost_se, pbRun_succ_se_some bs h]
  apply processBuffer_eq_pbRun
  rw [pbCost_fc, List.length_drop]
  omega

theorem pushChunk_mk (x : Str) (m : PMode) (bl : List Block) (b : Str) :
    pushChunk ⟨x, m, bl⟩ b = ⟨x ++ b, m, bl⟩ := rfl

theorem appendToLast_nil_chunk (bs : List Block) : appendToLast bs [] = bs := by
  simp [appendToLast]

theorem appendToLast_append (bs : List Block) (x y : Str) :
    appendToLast (appendToLast bs x) y = appendToLast bs (x ++ y) := by
  by_cases hx : x = []
  · subst hx
    rw [appendToLast_nil_chunk, List.nil_append]
  · by_cases hy : y = []
    · subst hy
      rw [appendToLast_nil_chunk, List.append_nil]
    · have hxy : x ++ y ≠ [] := fun hc => hx (List.append_eq_nil.mp hc).1
      cases hl : bs.getLast? with
      | none =>
        have hbs : bs = [] := List.getLast?_eq_none_iff.mp hl
        subst hbs
        unfold appendToLast
        rw [if_neg hx, if_neg hy, if_neg hxy]
        rfl
      | some bk =>
        unfold appendToLast
        rw [if_neg hx, if_neg hy, if_neg hxy, hl]
        rw [List.getLast?_concat, List.dropLast_concat]
        simp

theorem se_tail_drop (u b : Str) (k : Nat) :
    (u.drop (u.length - k) ++ b).drop ((u.drop (u.length - k) ++ b).length - k)
      = (u ++ b).drop ((u ++ b).length - k) := by
  rw [show u.drop (u.length - k) ++ b = (u ++ b).drop (u.length - k) from
    (List.drop_append_of_le_length (Nat.sub_le _ _)).symm]
  rw [List.drop_drop]
  congr 1
  simp only [List.length_append, List.length_drop]
  omega

theorem se_tail_take (u b : Str) (k : Nat) :
    u.take (u.length - k) ++
        (u.drop (u.length - k) ++ b).take ((u.drop (u.length - k) ++ b).length - k)
      = (u ++ b).take ((u ++ b).length - k) := by
  rw [show u.drop (u.length - k) ++ b = (u ++ b).drop (u.length - k) from
    (List.drop_append_of_le_length (Nat.sub_le _ _)).symm]
  rw [show u.take (u.length - k) = (u ++ b).take (u.length - k) from
    (List.take_append_of_le_length (Nat.sub_le _ _)).symm]
  rw [← List.take_add]
  congr 1
  simp only [List.length_append, List.length_drop]
  omega

theorem processBuffer_push_aux :
    ∀ N st b, pbCost st ≤ N →
      processBuffer (pushChunk (processBuffer st) b) = processBuffer (pushChunk st b) := by
  intro N
  induction N using Nat.strong_induction_on with
  | _ N IH =>
    intro st b hN
    obtain ⟨u, mode, bs⟩ := st
    cases mode with
    | fc =>
      cases hidx : jsIndexOfSub CODE_MARKER u with
      | none => rw [processBuffer_fc_none bs hidx]
      | some i =>
        have hb := jsIndexOfSub_bound CODE_MARKER_ne_nil (jsIndexOfSub_sound hidx).1
        have hlt := pbCost_lt_fc bs bs hidx
        rw [processBuffer_fc_some bs hidx]
        rw [IH (pbCost ⟨u.drop (i + CODE_MARKER.length), .fe, bs⟩) (by omega) _ b
          (Nat.le_refl _)]
        rw [pushChunk_mk, pushChunk_mk]
        rw [processBuffer_fc_some bs (jsIndexOfSub_append hidx)]
        rw [List.drop_append_of_le_length hb]
    | fe =>
      cases hidx : jsIndexOfSub EXPLANATION_MARKER u with
      | none => rw [processBuffer_fe_none bs hidx]
      | some i =>
        have hb := jsIndexOfSub_bound EXPLANATION_MARKER_ne_nil (jsIndexOfSub_sound hidx).1
        have hlt := pbCost_lt_fe
          (if stripCode (u.take i) = [] then bs
           else bs ++ [{ code_block := stripCode (u.take i), explanation := [] }]) bs hidx
        rw [processBuffer_fe_some bs hidx]
        have key := IH (pbCost ⟨u.drop (i + EXPLANATION_MARKER.length), .se,
            if stripCode (u.take i) = [] then bs
            else bs ++ [{ code_block := stripCode (u.take i), explanation := [] }]⟩)
          (by omega)
          ⟨u.drop (i + EXPLANATION_MARKER.length), .se,
            if stripCode (u.take i) = [] then bs
            else bs ++ [{ code_block := stripCode (u.take i), explanation := [] }]⟩ b
          (Nat.le_refl _)
        rw [key]
        rw [pushChunk_mk, pushChunk_mk]
        rw [processBuffer_fe_some bs (jsIndexOfSub_append hidx)]
        rw [List.drop_append_of_le_length hb,
          List.take_append_of_le_length (by omega : i ≤ u.length)]
    | se =>
      cases hidx : jsIndexOfSub CODE_MARKER u with
      | some i =>
        have hb := jsIndexOfSub_bound CODE_MARKER_ne_nil (jsIndexOfSub_sound hidx).1
        have hlt := pbCost_lt_se u i (appendToLast bs (u.take i)) bs
        rw [processBuffer_se_some bs hidx]
        rw [IH (pbCost ⟨u.drop i, .fc, appendToLast bs (u.take i)⟩) (by omega) _ b
          (Nat.le_refl _)]
        rw [pushChunk_mk, pushChunk_mk]
        rw [processBuffer_se_some bs (jsIndexOfSub_append hidx)]
        rw [List.drop_append_of_le_length (by omega : i ≤ u.length),
          List.take_append_of_le_length (by omega : i ≤ u.length)]
      | none =>
        rw [processBuffer_se_none bs hidx]
        rw [pushChunk_mk, pushChunk_mk]
        have hnone := jsIndexOfSub_none_iff.mp hidx
        have hober : ∀ j, j < u.length - (CODE_MARKER.length - 1) →
            CODE_MARKER.isPrefixOf ((u ++ b).drop j) = false := by
          intro j hj
          have hjb : j + CODE_MARKER.length ≤ u.length := by
            rw [CODE_MARKER_length] at hj ⊢
            omega
          rw [isPrefixOf_append_left hjb]
          exact hnone j
        have hshift := @jsIndexOfSub_shift CODE_MARKER (u ++ b)
          (u.length - (CODE_MARKER.length - 1)) hober
        rw [List.drop_append_of_le_length (Nat.sub_le _ _)] at hshift
        cases hidx2 : jsIndexOfSub CODE_MARKER
            (u.drop (u.length - (CODE_MARKER.length - 1)) ++ b) with
        | none =>
          rw [hidx2] at hshift
          simp only [Option.map_none'] at hshift
          rw [processBuffer_se_none _ hidx2, processBuffer_se_none bs hshift]
          simp only [PState.mk.injEq]
          refine ⟨?_, trivial, ?_⟩
          · exact se_tail_drop u b (CODE_MARKER.length - 1)
          · rw [appendToLast_append]
            rw [se_tail_take u b (CODE_MARKER.length - 1)]
        | some j =>
          rw [hidx2] at hshift
          simp only [Option.map_some'] at hshift
          rw [processBuffer_se_some _ hidx2, processBuffer_se_some bs hshift]
          have hdropeq : u.drop (u.length - (CODE_MARKER.length - 1)) ++ b =
              (u ++ b).drop (u.length - (CODE_MARKER.length - 1)) :=
            (List.drop_append_of_le_length (Nat.sub_le _ _)).symm
          congr 1
          simp only [PState.mk.injEq]
          refine ⟨?_, trivial, ?_⟩
          · rw [hdropeq, List.drop_drop]
            congr 1
            omega
          · rw [appendToLast_append]
            congr 1
            rw [hdropeq]
            rw [show u.take (u.length - (CODE_MARKER.length - 1)) =
                (u ++ b).take (u.length - (CODE_MARKER.length - 1)) from
              (List.take_append_of_le_length (Nat.sub_le _ _)).symm]
            rw [← List.take_add]
            congr 1
            omega

theorem processBuffer_push (st : PState) (b : Str) :
    processBuffer (pushChunk (processBuffer st) b) = processBuffer (pushChunk st b) :=
  processBuffer_push_aux (pbCost st) st b (Nat.le_refl _)

theorem mstream_fold (chunks : List Str) (st : PState) :
    chunks.foldl (fun s ch => processBuffer (pushChunk s ch)) (processBuffer st) =
      processBuffer (pushChunk st chunks.flatten) := by
  induction chunks generalizing st with
  | nil =>
    rw [List.foldl_nil, List.flatten_nil]
    congr 1
    obtain ⟨x, m, bl⟩ := st
    simp [pushChunk]
  | cons ch chs ih =>
    rw [List.foldl_cons, List.flatten_cons]
    rw [processBuffer_push st ch, ih (pushChunk st ch)]
    congr 1
    obtain ⟨x, m, bl⟩ := st
    simp [pushChunk]

/-- C2: the final block list of the marker-delimited streaming parser depends
only on the concatenation of the arriving fragments — every way of splitting
the input stream yields the same final block list as the unsplit input — and
in particular the marker split across two fragments as '---COD' then
'E---(newline)foo(newline)---EXPLANATION---(newline)bar' yields the identical
single block as the unsplit case, with no partial-marker text in any
explanation; the withheld CODE_MARKER.length - 1 tail characters make this
possible. -/
theorem c2_marker_split_invariance :
    (∀ chunks : List Str, mstreamRun chunks = mstreamRun [chunks.flatten])
    ∧ mstreamRun ["---COD".toList, "E---\nfoo\n---EXPLANATION---\nbar".toList] =
        [{ code_block := "foo".toList, explanation := "bar".toList }] := by
  constructor
  · intro chunks
    unfold mstreamRun
    have hinit : processBuffer ⟨[], .fc, []⟩ = ⟨[], .fc, []⟩ :=
      processBuffer_fc_none [] (by decide)
    have key : ∀ cs : List Str,
        cs.foldl (fun s ch => processBuffer (pushChunk s ch))
            { buffer := [], mode := .fc, blocks := [] } =
          processBuffer (pushChunk ⟨[], .fc, []⟩ cs.flatten) := by
      intro cs
      conv_lhs => rw [show ({ buffer := [], mode := .fc, blocks := [] } : PState)
        = processBuffer ⟨[], .fc, []⟩ from hinit.symm]
      exact mstream_fold cs _
    rw [key chunks, key [chunks.flatten], List.flatten_singleton]
  · decide

/-- C3: running the marker-delimited parser, the end-of-stream flush and the
final trimming on the complete input
'---CODE---(newline)foo(newline)---EXPLANATION---(newline)bar' produces
exactly one block with code_block foo and explanation bar — the single
leading and trailing newlines adjacent to the markers are stripped from the
code block. -/
theorem c3_marker_single_record :
    mstreamRun ["---CODE---\nfoo\n---EXPLANATION---\nbar".toList] =
      [{ code_block := "foo".toList, explanation := "bar".toList }] := by
  decide

/-- C10: in the marker-delimited parser, a record whose code section between
the two markers is empty after stripping one leading and one trailing newline
produces no block at all — the parser moves to streaming-explanation with the
block list unchanged; the explanation text that follows is then appended to
the previous block when one exists, and is discarded entirely when no block
has been emitted yet. -/
theorem c10_empty_code_record :
    (∀ (buf : Str) (bs : List Block) (i : Nat),
      jsIndexOfSub EXPLANATION_MARKER buf = some i → stripCode (buf.take i) = [] →
      processBuffer ⟨buf, .fe, bs⟩ =
        processBuffer ⟨buf.drop (i + EXPLANATION_MARKER.length), .se, bs⟩)
    ∧ (∀ chunk : Str, appendToLast [] chunk = [])
    ∧ (∀ (bs : List Block) (b : Block) (chunk : Str), chunk ≠ [] →
      appendToLast (bs ++ [b]) chunk =
        bs ++ [{ code_block := b.code_block, explanation := b.explanation ++ chunk }]) := by
  refine ⟨?_, ?_, ?_⟩
  · intro buf bs i hidx hstrip
    rw [processBuffer_fe_some bs hidx, if_pos hstrip]
  · intro chunk
    unfold appendToLast
    by_cases h : chunk = []
    · rw [if_pos h]
    · rw [if_neg h]
      rfl
  · intro bs b chunk hc
    unfold appendToLast
    rw [if_neg hc, List.getLast?_concat, List.dropLast_concat]

/-- Witness for C10: a concrete empty-code record, a discarded chunk with no
previous block, and an appended chunk with a previous block. -/
theorem c10_witness :
    jsIndexOfSub EXPLANATION_MARKER "\n\n---EXPLANATION---x".toList = some 2
    ∧ stripCode (("\n\n---EXPLANATION---x".toList).take 2) = []
    ∧ processBuffer ⟨"\n\n---EXPLANATION---x".toList, .fe, []⟩ =
        processBuffer ⟨("\n\n---EXPLANATION---x".toList).drop
          (2 + EXPLANATION_MARKER.length), .se, []⟩
    ∧ appendToLast [] "y".toList = []
    ∧ ("y".toList : Str) ≠ []
    ∧ appendToLast ([] ++ [{ code_block := "A".toList, explanation := "x".toList }])
        "y".toList =
        [] ++ [{ code_block := "A".toList, explanation := "x".toList ++ "y".toList }] :=
  ⟨by decide, by decide,
   c10_empty_code_record.1 _ [] 2 (by decide) (by decide),
   c10_empty_code_record.2.1 _,
   by decide,
   c10_empty_code_record.2.2 [] _ _ (by decide)⟩

/-- C7: when the block matcher cannot locate a block (findBlock returns
NOT_FOUND), the lineMetadata fold step records no lines for that block and
leaves the running search cursor exactly where it was, so the next block is
searched from the same offset; the block list itself is never modified by the
projector, so the block and its explanation are kept. -/
theorem c7_unlocatable_block_frame (source : Str) (st : LineSt) (blockIndex : Nat)
    (codeBlock : Str) (h : findBlock source codeBlock st.lastIndex = none) :
    lineStep source st blockIndex codeBlock = st := by
  unfold lineStep
  by_cases hc : codeBlock = []
  · rw [if_pos hc]
  · rw [if_neg hc, h]

/-- Witness for C7: a block absent from the source leaves the projection
state untouched. -/
theorem c7_witness :
    findBlock "abc".toList "zzz".toList (({ metadata := [], lastIndex := 0 } :
      LineSt)).lastIndex = none
    ∧ lineStep "abc".toList { metadata := [], lastIndex := 0 } 0 "zzz".toList =
        { metadata := [], lastIndex := 0 } :=
  ⟨by decide, c7_unlocatable_block_frame _ _ 0 _ (by decide)⟩

theorem jsIndexOf_first {source pat : Str} {k p : Nat} (hne : pat ≠ [])
    (hocc : pat.isPrefixOf (source.drop p) = true) (hk : k ≤ p)
    (hfirst : ∀ q, k ≤ q → q < p → pat.isPrefixOf (source.drop q) = false) :
    jsIndexOf source pat k = some p := by
  have hb := jsIndexOfSub_bound hne hocc
  have hpos : 0 < pat.length := List.length_pos.mpr hne
  have hplen : p < source.length := by omega
  have hk' : min k source.length = k := by omega
  have hsub : jsIndexOfSub pat (source.drop k) = some (p - k) := by
    apply jsIndexOfSub_complete
    · rw [List.drop_drop, show k + (p - k) = p from by omega]
      exact hocc
    · intro j hj
      rw [List.drop_drop]
      exact hfirst (k + j) (by omega) (by omega)
  unfold jsIndexOf
  rw [hk', hsub]
  simp only [Option.map_some']
  rw [show p - k + k = p from by omega]

theorem jsIndexOf_none {source pat : Str} {k : Nat} (hne : pat ≠ [])
    (h : ∀ q, q < source.length → k ≤ q → pat.isPrefixOf (source.drop q) = false) :
    jsIndexOf source pat k = none := by
  unfold jsIndexOf
  rw [Option.map_eq_none']
  rw [jsIndexOfSub_none_iff]
  intro j
  rw [List.drop_drop]
  by_cases hj : j + min k source.length < source.length
  · exact h _ (by omega) (by omega)
  · rw [List.drop_eq_nil_of_le (by omega)]
    rw [Bool.eq_false_iff]
    intro hc
    rw [ List.isPrefixOf_iff_prefix, List.prefix_nil] at hc
    exact hne hc

/-- Counterexample to C4 as stated: the empty candidate occurs as an exact
substring of any source at the search offset (here position 0 of source a),
yet findBlock returns NOT_FOUND because of its empty-candidate guard, not the
occurrence position. -/
theorem c4_counterexample :
    (([] : Str).isPrefixOf ("a".toList.drop 0) = true)
    ∧ findBlock "a".toList [] 0 ≠ some (0, ([] : Str)) := by
  exact ⟨by decide, by decide⟩

/-- C4 (amended): for every source, nonempty candidate and search offset, if
the candidate occurs as an exact substring of the source at the first
position p at or after the offset, then findBlock returns offset p with the
candidate itself as the matched text — exact-substring matching dominates the
fallback strategies.  (The amendment excludes only the empty candidate, which
the code rejects up front.) -/
theorem c4_exact_substring_match (source cand : Str) (k p : Nat)
    (hne : cand ≠ [])
    (hocc : cand.isPrefixOf (source.drop p) = true)
    (hk : k ≤ p)
    (hfirst : ∀ q, k ≤ q → q < p → cand.isPrefixOf (source.drop q) = false) :
    findBlock source cand k = some (p, cand) := by
  unfold findBlock
  rw [if_neg hne, jsIndexOf_first hne hocc hk hfirst]

/-- Witness for C4: candidate b in source ab from offset 0, first occurrence
at position 1. -/
theorem c4_witness :
    ("b".toList : Str) ≠ []
    ∧ ("b".toList).isPrefixOf ("ab".toList.drop 1) = true
    ∧ 0 ≤ 1
    ∧ findBlock "ab".toList "b".toList 0 = some (1, "b".toList) :=
  ⟨by decide, by decide, by decide,
   c4_exact_substring_match _ _ 0 1 (by decide) (by decide) (by decide)
     (by
       intro q hq hlt
       have hq0 : q = 0 := by omega
       subst hq0
       decide)⟩

theorem replaceLF_length (l : Str) : (replaceLF l).length = l.length + countNL l := by
  induction l with
  | nil => rfl
  | cons c rest ih =>
    unfold replaceLF countNL
    unfold countNL at ih
    by_cases hc : c = '\n'
    · rw [if_pos hc]
      simp only [List.length_cons, List.countP_cons, ih]
      rw [if_pos (by simp [hc])]
      omega
    · rw [if_neg hc]
      simp only [List.length_cons, List.countP_cons, ih]
      rw [if_neg (by simp [hc])]
      omega

/-- C5: for a candidate containing line-feed newlines, when the source has no
exact occurrence of the candidate at or after the search offset but does
contain the carriage-return + line-feed variant there, findBlock returns the
offset of the first such occurrence together with the exact text as it
appears in the source — the CRLF form, not the original candidate. -/
theorem c5_crlf_fallback (source cand : Str) (k p : Nat)
    (hlf : '\n' ∈ cand)
    (hnoexact : ∀ q, q < source.length → k ≤ q → cand.isPrefixOf (source.drop q) = false)
    (hocc : (replaceLF cand).isPrefixOf (source.drop p) = true)
    (hk : k ≤ p)
    (hfirst : ∀ q, k ≤ q → q < p → (replaceLF cand).isPrefixOf (source.drop q) = false) :
    findBlock source cand k = some (p, replaceLF cand) := by
  have hcne : cand ≠ [] := List.ne_nil_of_mem hlf
  have hlen : (replaceLF cand).length = cand.length + countNL cand := replaceLF_length cand
  have hpos : 0 < countNL cand := by
    unfold countNL
    rw [List.countP_pos_iff]
    exact ⟨'\n', hlf, by decide⟩
  have hnesel : replaceLF cand ≠ cand := by
    intro hc
    have := congrArg List.length hc
    omega
  have hrne : replaceLF cand ≠ [] := by
    intro hc
    have := congrArg List.length hc
    simp only [hlen, List.length_nil] at this
    have : cand.length = 0 := by omega
    exact hcne (List.length_eq_zero.mp this)
  unfold findBlock
  rw [if_neg hcne, jsIndexOf_none hcne hnoexact]
  rw [if_pos hnesel, jsIndexOf_first hrne hocc hk hfirst]

/-- Witness for C5: candidate a(lf)b, source a(cr)(lf)b, search offset 0. -/
theorem c5_witness :
    '\n' ∈ "a\nb".toList
    ∧ (∀ q, q < "a\r\nb".toList.length → 0 ≤ q →
        ("a\nb".toList).isPrefixOf ("a\r\nb".toList.drop q) = false)
    ∧ (replaceLF "a\nb".toList).isPrefixOf ("a\r\nb".toList.drop 0) = true
    ∧ findBlock "a\r\nb".toList "a\nb".toList 0 = some (0, replaceLF "a\nb".toList) :=
  ⟨by decide, by decide, by decide,
   c5_crlf_fallback _ _ 0 0 (by decide) (by decide) (by decide) (by decide)
     (by
       intro q hq hlt
       exact absurd hlt (Nat.not_lt_zero q))⟩

/-! ## The cross-file explanation cache -/

theorem cacheStep_empty (c : Cache) (r : JsRec) :
    cacheStep [] c r = setA c (createBlockHash r.code_block) r.explanation := by
  unfold cacheStep
  rw [if_neg]
  rw [lookupA_nil]
  simp

theorem lookup_foldl_setA (h : Str) :
    ∀ (recs : List JsRec) (c : Cache),
    lookupA (recs.foldl
        (fun cc r => setA cc (createBlockHash r.code_block) r.explanation) c) h =
      (match lastHash recs h with
       | some r => some r.explanation
       | none => lookupA c h) := by
  intro recs
  induction recs with
  | nil => intro c; simp [lastHash]
  | cons r rest ih =>
    intro c
    rw [List.foldl_cons, ih]
    unfold lastHash
    rw [List.reverse_cons, List.find?_append]
    cases hf : rest.reverse.find? (fun r' => createBlockHash r'.code_block == h) with
    | some r' => simp
    | none =>
      simp only [Option.none_or]
      by_cases hh : createBlockHash r.code_block = h
      · rw [List.find?_cons_of_pos _ (by simp [hh]), lookupA_setA, if_pos hh.symm]
      · rw [List.find?_cons_of_neg _ (by simp [hh]), lookupA_setA,
          if_neg (fun hc => hh hc.symm)]
        simp

theorem find?_eq_of_unique {α : Type} {l : List α} {p : α → Bool} {a : α}
    (hmem : a ∈ l) (hp : p a = true)
    (hall : ∀ b ∈ l, p b = true → b = a) :
    l.find? p = some a := by
  have hs : (l.find? p).isSome := List.find?_isSome.mpr ⟨a, hmem, hp⟩
  obtain ⟨b, hb⟩ := Option.isSome_iff_exists.mp hs
  rw [hb, hall b (List.mem_of_find?_eq_some hb) (List.find?_some hb)]

theorem createBlockHash_congr {x y : Str}
    (h : normalizeWhitespace x = normalizeWhitespace y) :
    createBlockHash x = createBlockHash y := by
  unfold createBlockHash
  rw [h]

/-- Counterexample to C6 as stated: two blocks with identical normalized
code text but different raw whitespace arriving in the same file's stream;
the second block's stored explanation is its own freshly produced e2, not the
first block's e1, because the cache lookups of a running stream see only the
globalBlockCache snapshot captured when the callback was created, never the
writes made during the same stream. -/
theorem c6_counterexample :
    normalizeWhitespace "a  b".toList = normalizeWhitespace "a b".toList
    ∧ ("a  b".toList : Str) ≠ "a b".toList
    ∧ (fetchRun jpC6 [] [jlineA ++ '\n' :: jlineB ++ ['\n']]).1 =
        [{ code_block := "a b".toList, explanation := "e1".toList },
         { code_block := "a  b".toList, explanation := "e2".toList }]
    ∧ ("e2".toList : Str) ≠ "e1".toList := by
  refine ⟨by decide, by decide, by decide, by decide⟩

theorem blockOf_empty (r : JsRec) :
    blockOf [] r = { code_block := r.code_block, explanation := r.explanation } := by
  unfold blockOf
  rw [lookupA_nil]

theorem blockOf_code (c : Cache) (r : JsRec) : (blockOf c r).code_block = r.code_block := rfl

theorem fetchRun_fst (jp : JParse) (cache0 : Cache) (chunks : List Str) :
    (fetchRun jp cache0 chunks).1 =
      ((splitOnChar '\n' chunks.flatten).filterMap (parseRecord jp)).map (blockOf cache0) := by
  rw [fetchRun_eq_foldLines, foldl_processLine_spec]
  simp

theorem fetchRun_snd (jp : JParse) (cache0 : Cache) (chunks : List Str) :
    (fetchRun jp cache0 chunks).2 =
      ((splitOnChar '\n' chunks.flatten).filterMap (parseRecord jp)).foldl
        (cacheStep cache0) cache0 := by
  rw [fetchRun_eq_foldLines, foldl_processLine_spec]

/-- C6 (amended): when the two blocks with identical normalized code arrive
in different files' streams — the second stream starting after the first has
completed, and the first stream containing a single block with that hash —
the second block's final stored explanation equals the first block's
explanation: the cached explanation is substituted for the one the model just
produced.  (Within one stream the substitution does not occur, because the
running closure only sees the globalBlockCache snapshot captured at its
creation; see the counterexample.) -/
theorem c6_cross_stream_dedup (jp1 jp2 : JParse) (chs1 chs2 : List Str) (i j : Nat)
    (b1 b2 : Block)
    (h1 : (fetchRun jp1 [] chs1).1[i]? = some b1)
    (huniq : ∀ i' b', (fetchRun jp1 [] chs1).1[i']? = some b' →
      createBlockHash b'.code_block = createBlockHash b1.code_block → i' = i)
    (h2 : (fetchRun jp2 (fetchRun jp1 [] chs1).2 chs2).1[j]? = some b2)
    (hnorm : normalizeWhitespace b2.code_block = normalizeWhitespace b1.code_block) :
    b2.explanation = b1.explanation := by
  rw [fetchRun_fst] at h1 h2
  rw [fetchRun_snd] at h2
  simp only [fetchRun_fst] at huniq
  set recs1 := (splitOnChar '\n' chs1.flatten).filterMap (parseRecord jp1) with hrecs1
  set recs2 := (splitOnChar '\n' chs2.flatten).filterMap (parseRecord jp2) with hrecs2
  rw [List.getElem?_map] at h1 h2
  obtain ⟨r1, hr1, hb1⟩ := Option.map_eq_some'.mp h1
  obtain ⟨r2, hr2, hb2⟩ := Option.map_eq_some'.mp h2
  have hb1' : b1 = { code_block := r1.code_block, explanation := r1.explanation } := by
    rw [← hb1, blockOf_empty]
  have hfoldeq : recs1.foldl (cacheStep []) [] =
      recs1.foldl (fun cc r => setA cc (createBlockHash r.code_block) r.explanation) [] := by
    have hfn : cacheStep ([] : Cache) =
        fun cc r => setA cc (createBlockHash r.code_block) r.explanation :=
      funext fun cc => funext fun r => cacheStep_empty cc r
    rw [hfn]
  have hlast : lastHash recs1 (createBlockHash b1.code_block) = some r1 := by
    unfold lastHash
    apply @find?_eq_of_unique JsRec recs1.reverse
      (fun r' => createBlockHash r'.code_block == createBlockHash b1.code_block) r1
    · rw [List.mem_reverse]
      obtain ⟨hlt, hget⟩ := List.getElem?_eq_some_iff.mp hr1
      exact hget ▸ List.getElem_mem hlt
    · rw [hb1']
      simp
    · intro b hbmem hbp
      rw [List.mem_reverse] at hbmem
      obtain ⟨n, hn, hgn⟩ := List.getElem_of_mem hbmem
      have hgn? : recs1[n]? = some b := by
        rw [List.getElem?_eq_getElem hn, hgn]
      have hmapn : (recs1.map (blockOf []))[n]? = some (blockOf [] b) := by
        rw [List.getElem?_map, hgn?]
        rfl
      have hni : n = i := by
        apply huniq n (blockOf [] b) hmapn
        rw [blockOf_code]
        exact (beq_iff_eq ..).mp hbp
      rw [hni] at hgn?
      rw [hr1] at hgn?
      exact ((Option.some.injEq _ _).mp hgn?).symm
  have hlook : lookupA (recs1.foldl (cacheStep []) []) (createBlockHash b1.code_block) =
      some b1.explanation := by
    rw [hfoldeq, lookup_foldl_setA, hlast]
    rw [hb1']
  have hhash : createBlockHash r2.code_block = createBlockHash b1.code_block := by
    have : r2.code_block = b2.code_block := by rw [← hb2, blockOf_code]
    rw [this]
    exact createBlockHash_congr hnorm
  rw [← hb2]
  unfold blockOf
  simp only [hhash, hlook]

/-- Witness for the amended C6: the duplicate block arriving in a second
stream that starts after the first completed receives the cached e1. -/
theorem c6_witness :
    (fetchRun jpC6 [] [jlineA ++ ['\n']]).1[0]? =
      some { code_block := "a b".toList, explanation := "e1".toList }
    ∧ (fetchRun jpC6 (fetchRun jpC6 [] [jlineA ++ ['\n']]).2 [jlineB ++ ['\n']]).1[0]? =
      some { code_block := "a  b".toList, explanation := "e1".toList }
    ∧ normalizeWhitespace "a  b".toList = normalizeWhitespace "a b".toList
    ∧ ("e1".toList : Str) = "e1".toList :=
  ⟨by decide, by decide, by decide,
   c6_cross_stream_dedup jpC6 jpC6 [jlineA ++ ['\n']] [jlineB ++ ['\n']] 0 0
     { code_block := "a b".toList, explanation := "e1".toList }
     { code_block := "a  b".toList, explanation := "e1".toList }
     (by decide)
     (by
       intro i' b' hg hh
       match i' with
       | 0 => rfl
       | n + 1 =>
         rw [show (fetchRun jpC6 [] [jlineA ++ ['\n']]).1 =
           [{ code_block := "a b".toList, explanation := "e1".toList }] from by decide] at hg
         simp at hg)
     (by decide) (by decide)⟩

/-- C8: whenever the per-file analysis actually starts (the entry guard
passes), it ends with the file's ProcessingStatus set to done on every exit
path, success or error; and on every error the file's Explanation is replaced
by a synthetic one-block Explanation carrying the user-facing message built
by handleApiError, so no file is ever left in the processing state. -/
theorem c8_error_boundary (jp : JParse) (envKey : Option Str) (file : FileD)
    (out : POut) (st : AppSt)
    (hc : file.content ≠ none) (hce : file.content ≠ some [])
    (hk : st.apiKey ≠ none) (hke : st.apiKey ≠ some [])
    (hd : lookupA st.status file.path ≠ some PStatus.done)
    (hp : lookupA st.status file.path ≠ some PStatus.processing) :
    lookupA (analyze jp envKey file out st).status file.path = some PStatus.done
    ∧ ∀ chunksSoFar err, out = POut.failure chunksSoFar err →
      lookupA (analyze jp envKey file out st).expl file.path =
        some [{ code_block := "// Error for ".toList ++ file.name
                explanation := "Failed to analyze file. ".toList ++
                  (handleApiError envKey err st.apiKey).1 }] := by
  unfold analyze
  rw [if_neg (by simp [hc, hce, hk, hke, hd, hp])]
  cases out with
  | success chunks =>
    refine ⟨?_, ?_⟩
    · simp [lookupA_setA]
    · intro cs2 err2 h
      cases h
  | failure cs err =>
    refine ⟨?_, ?_⟩
    · simp [lookupA_setA]
    · intro cs2 err2 h
      injection h with h1 h2
      subst h1
      subst h2
      simp [lookupA_setA]

/-- Witness for C8: a failing run on a fresh file ends done with the
synthetic one-block Explanation. -/
theorem c8_witness :
    ((⟨"f".toList, "f".toList, some "x".toList⟩ : FileD)).content ≠ none
    ∧ ((⟨"f".toList, "f".toList, some "x".toList⟩ : FileD)).content ≠ some []
    ∧ ((⟨some "k".toList, [], [], []⟩ : AppSt)).apiKey ≠ none
    ∧ ((⟨some "k".toList, [], [], []⟩ : AppSt)).apiKey ≠ some []
    ∧ lookupA ((⟨some "k".toList, [], [], []⟩ : AppSt)).status "f".toList ≠ some PStatus.done
    ∧ lookupA ((⟨some "k".toList, [], [], []⟩ : AppSt)).status "f".toList ≠
        some PStatus.processing
    ∧ lookupA (analyze jpC6 none ⟨"f".toList, "f".toList, some "x".toList⟩
        (POut.failure [] ⟨true, "boom".toList⟩) ⟨some "k".toList, [], [], []⟩).status
        "f".toList = some PStatus.done
    ∧ lookupA (analyze jpC6 none ⟨"f".toList, "f".toList, some "x".toList⟩
        (POut.failure [] ⟨true, "boom".toList⟩) ⟨some "k".toList, [], [], []⟩).expl
        "f".toList =
      some [{ code_block := "// Error for ".toList ++ "f".toList
              explanation := "Failed to analyze file. ".toList ++
                (handleApiError none ⟨true, "boom".toList⟩ (some "k".toList)).1 }] :=
  ⟨by decide, by decide, by decide, by decide, by decide, by decide,
   (c8_error_boundary jpC6 none ⟨"f".toList, "f".toList, some "x".toList⟩
     (POut.failure [] ⟨true, "boom".toList⟩) ⟨some "k".toList, [], [], []⟩
     (by decide) (by decide) (by decide) (by decide) (by decide) (by decide)).1,
   (c8_error_boundary jpC6 none ⟨"f".toList, "f".toList, some "x".toList⟩
     (POut.failure [] ⟨true, "boom".toList⟩) ⟨some "k".toList, [], [], []⟩
     (by decide) (by decide) (by decide) (by decide) (by decide)
     (by decide)).2 [] ⟨true, "boom".toList⟩ rfl⟩

/-- C9: every ingestion attempt that would produce more than 25 files is
rejected as a whole — handleFileChange hands no project tree to
onProjectReady when more than FILE_LIMIT files are selected, and
handlePasteSubmit hands no project tree when the pasted text parses to more
than FILE_LIMIT files; the import is never truncated to the first 25. -/
theorem c9_file_cap_rejection :
    (∀ files : List (Str × Str), FILE_LIMIT < files.length →
      handleFileChange files = none)
    ∧ (∀ (parseMF : Str → List FileNodeM) (pastedCode : Str),
        FILE_LIMIT < (parseMF pastedCode).length →
        handlePasteSubmit parseMF pastedCode = none) := by
  constructor
  · intro files h
    unfold handleFileChange
    rw [if_neg (by omega), if_pos h]
  · intro parseMF pastedCode h
    unfold handlePasteSubmit
    by_cases ht : trimL pastedCode = []
    · rw [if_pos ht]
    · rw [if_neg ht]
      simp only [if_pos h]

/-- Witness for C9: 26 distinct files are rejected on both ingestion paths. -/
theorem c9_witness :
    FILE_LIMIT <
      ((List.range 26).map
        (fun n => (([Char.ofNat (65 + n)] : Str), ("x".toList : Str)))).length
    ∧ handleFileChange
        ((List.range 26).map
          (fun n => (([Char.ofNat (65 + n)] : Str), ("x".toList : Str)))) = none
    ∧ FILE_LIMIT <
      ((fun (_ : Str) =>
        List.replicate 26 (FileNodeM.mk "f".toList "f".toList (some "x".toList) []))
          "code".toList).length
    ∧ handlePasteSubmit
        (fun (_ : Str) =>
          List.replicate 26 (FileNodeM.mk "f".toList "f".toList (some "x".toList) []))
        "code".toList = none :=
  ⟨by decide, c9_file_cap_rejection.1 _ (by decide),
   by decide, c9_file_cap_rejection.2 _ _ (by decide)⟩

end Ansuz
